import Mathlib

/-
Verification of the spectral vertex nomination component
(`graspologic/nominate/spectralVN.py`, class `SpectralVertexNominator`).

Modelling conventions:
* numpy float64 arithmetic is modelled by exact rational arithmetic (ℚ);
  `np.inf` (which the scoring step produces for "no evidence" entries) is
  modelled by an explicit `Score.inf` constructor.
* numpy arrays are modelled by lists (row-major lists of rows); the dtype
  and ndim checks the code performs are carried as explicit fields.
* Python exceptions are modelled by an `Err` sum carrying the message.
* `np.argsort` is modelled as an ascending sort of the index range which
  resolves ties by the original index (a deterministic model of numpy's
  deterministic but unspecified tie order).
* the external embedding algorithm (`self.embeder.fit_transform`) and the
  external distance routine (`scipy.spatial.distance.cdist`'s metric) are
  out-of-scope collaborators per the spec and are passed as function
  parameters `prov` and `metric`.
* methods that mutate the instance return the post-state paired with an
  `Except` outcome, so state left behind by a raising call is observable;
  `fit`/`_embed` additionally return how many times the embedding provider
  was invoked during the call (0 or 1), matching the call sites of
  `self.embeder.fit_transform`.
-/

namespace SpectralVN

/-- Python exception classes raised by the code, with their messages. -/
inductive Err where
  | typeError (msg : String)
  | indexError (msg : String)
  | valueError (msg : String)
  | notImplementedError (msg : String)
  | attributeError (msg : String)
deriving DecidableEq, Repr

/-- A float64 score value: either a finite rational or positive infinity. -/
inductive Score where
  | fin (q : ℚ)
  | inf
deriving DecidableEq, Repr

/-- Strict comparison on scores, as float64 `<` behaves on finite values and
`np.inf` (every finite value is below infinity). -/
def Score.lt : Score → Score → Bool
  | .fin a, .fin b => decide (a < b)
  | .fin _, .inf => true
  | .inf, _ => false

/-- Strict rational comparison as a Bool, for argsort over distance rows. -/
def qlt (a b : ℚ) : Bool := decide (a < b)

/-- Insert an index into a list, before the first element it compares `le` to.
Building block of the sorting model for `np.argsort`. -/
def insIdx (le : ℕ → ℕ → Bool) (x : ℕ) : List ℕ → List ℕ
  | [] => [x]
  | y :: ys => if le x y then x :: y :: ys else y :: insIdx le x ys

/-- Insertion sort of a list of indices by the comparator `le`. -/
def sortIdx (le : ℕ → ℕ → Bool) : List ℕ → List ℕ
  | [] => []
  | x :: xs => insIdx le x (sortIdx le xs)

/-- Comparator on positions of `l`: position `i` comes before `j` when the
value at `i` is strictly below, or the values are not strictly ordered either
way (i.e. equal, for a total `lt`) and `i ≤ j`. -/
def cmpIdx (lt : α → α → Bool) (d : α) (l : List α) (i j : ℕ) : Bool :=
  lt (l.getD i d) (l.getD j d) || (!lt (l.getD j d) (l.getD i d) && decide (i ≤ j))

/-- Model of `np.argsort` for a 1-dimensional array `l`: the indices
`0..l.length-1` sorted ascending by value, ties by index. -/
def argsortBy (lt : α → α → Bool) (d : α) (l : List α) : List ℕ :=
  sortIdx (cmpIdx lt d l) (List.range l.length)

/-- Argsort of a row of rational distances. -/
def argsortQ (l : List ℚ) : List ℕ := argsortBy qlt 0 l

/-- Argsort of a column of scores (axis-0 argsort of `pred_weights`). -/
def argsortS (l : List Score) : List ℕ := argsortBy Score.lt (.fin 0) l

/-- Error-propagating map over a list (the shape numpy vectorised indexing
takes in this model: the first out-of-bounds position aborts the operation). -/
def mapE (f : α → Except Err β) : List α → Except Err (List β)
  | [] => .ok []
  | a :: l =>
    match f a with
    | .error e => .error e
    | .ok b =>
      match mapE f l with
      | .error e => .error e
      | .ok bs => .ok (b :: bs)

/-- Model of numpy basic integer indexing into an axis of size `n`: values in
`[0, n)` index from the front, values in `[-n, 0)` from the back, anything
else raises `IndexError`. -/
def npIdx (n : ℕ) (z : ℤ) : Except Err ℕ :=
  if 0 ≤ z ∧ z < (n : ℤ) then .ok z.toNat
  else if -(n : ℤ) ≤ z ∧ z < 0 then .ok ((n : ℤ) + z).toNat
  else .error (.indexError "index out of bounds")

/-- Model of `np.unique` on a 1-dimensional integer array: the distinct values
sorted ascending. Built by inserting each value into sorted position,
skipping it when already present. -/
def insSorted (x : ℤ) : List ℤ → List ℤ
  | [] => [x]
  | y :: ys => if x < y then x :: y :: ys else if x = y then y :: ys else y :: insSorted x ys

def npUnique (l : List ℤ) : List ℤ := l.foldr insSorted []

/-- Extract column `j` of a 2-dimensional integer array given as rows
(`arr[:, j]`); raises `IndexError` when some row is too short, as numpy does
when axis 1 has fewer than `j+1` entries. -/
def col (j : ℕ) (rows : List (List ℤ)) : Except Err (List ℤ) :=
  if rows.all (fun r => decide (j < r.length)) then .ok (rows.map (fun r => r.getD j 0))
  else .error (.indexError "index out of bounds for axis 1")

/-- The synthetic label column `np.arange(n)` as integers. -/
def intRange (n : ℕ) : List ℤ := (List.range n).map (fun (j : ℕ) => (j : ℤ))

/-- The seed argument `y` of `fit` / `_make_2d`: a numpy array of declared
dtype (integral or not) and of dimension 1, 2 (with a column count), or
higher. Values are carried as integers; for non-integral dtype the values are
irrelevant because `_make_2d` raises before reading them. -/
inductive Seed where
  | d1 (intdt : Bool) (xs : List ℤ)
  | d2 (intdt : Bool) (rows : List (List ℤ)) (cols : ℕ)
  | dHigh (intdt : Bool) (ndim : ℕ)
deriving DecidableEq, Repr

/-- `SpectralVertexNominator._make_2d`: canonicalize the seed into an (n, 2)
array of (vertex index, attribute label) rows. A 1-dimensional (or (n,1))
seed gets the synthetic labels `0..n-1`; an (n,2) seed passes through; other
shapes raise. Dimension 0 arrays are not modelled (the code raises
`IndexError` on them as well, from reading `shape[1]`). -/
def _make_2d : Seed → Except Err (List (List ℤ))
  | .d1 false _ => .error (.typeError "Argument must be of type int")
  | .d2 false _ _ => .error (.typeError "Argument must be of type int")
  | .dHigh false _ => .error (.typeError "Argument must be of type int")
  | .dHigh true _ => .error (.indexError "Argument must have shape (n) or (n, 1) or (n, 2).")
  | .d1 true xs =>
    .ok (List.zipWith (fun x i => [x, i]) xs (intRange xs.length))
  | .d2 true rows cols =>
    if cols > 2 then .error (.indexError "Argument must have shape (n) or (n, 1) or (n, 2).")
    else if cols = 1 then
      .ok (List.zipWith (fun x i => [x, i]) (rows.map (fun r => r.getD 0 0))
        (intRange rows.length))
    else .ok rows

/-- An embedding array as held in `self.embedding`: its numpy dimensionality
(checked by the constructor in persistent mode) and its rows. -/
structure EmbArr where
  ndim : ℕ
  rows : List (List ℚ)
deriving DecidableEq, Repr

/-- An adjacency-matrix argument `X` of `fit`: dtype numeric or not, numpy
dimensionality, the two leading shape entries, and the entries themselves
(consumed only by the external embedding provider). -/
structure AdjArr where
  numeric : Bool
  ndim : ℕ
  nrows : ℕ
  ncols : ℕ
  entries : List (List ℚ)
deriving DecidableEq, Repr

/-- The embedding algorithm object stored in `self.embeder`: one of the two
built-ins or an externally supplied `BaseEmbed` instance. -/
inductive Embeder where
  | ase
  | lse
  | custom (id : ℕ)
deriving DecidableEq, Repr

/-- The `embeder` constructor argument: a `BaseEmbed`-conforming object or a
name string. -/
inductive EmbederArg where
  | obj (e : Embeder)
  | name (s : String)
deriving DecidableEq, Repr

/-- The value of `predict`'s `k` argument: a Python `int` or a value of any
other type (`type(k) is not int`). -/
inductive PyNum where
  | int (z : ℤ)
  | nonInt
deriving DecidableEq, Repr

/-- Instance state of `SpectralVertexNominator`. `multigraph` is set to
`False` by `BaseVN.__init__(multigraph=False)`; `embeder` is `none` on the
constructor path that never assigns `self.embeder`. -/
structure Nominator where
  embedding : Option EmbArr
  embeder : Option Embeder
  persistent : Bool
  multigraph : Bool
  attr_labels : Option (List ℤ)
  unique_att : Option (List ℤ)
  distance_matrix : Option (List (List ℚ))
deriving DecidableEq, Repr

/-- `SpectralVertexNominator.__init__`. Resolves the embedding algorithm when
no embedding is supplied or persistence is off; otherwise checks the supplied
embedding is 2-dimensional. -/
def init (embedding : Option EmbArr) (embeder : EmbederArg) (persistent : Bool) :
    Except Err Nominator :=
  if embedding.isNone || !persistent then
    match embeder with
    | .obj e => .ok ⟨embedding, some e, persistent, false, none, none, none⟩
    | .name s =>
      if s = "ASE" then .ok ⟨embedding, some .ase, persistent, false, none, none, none⟩
      else if s = "LSE" then .ok ⟨embedding, some .lse, persistent, false, none, none, none⟩
      else .error (.typeError "")
  else
    match embedding with
    | some e =>
      if e.ndim ≠ 2 then .error (.indexError "embedding must have dimension 2")
      else .ok ⟨embedding, none, persistent, false, none, none, none⟩
    | none => .ok ⟨none, none, persistent, false, none, none, none⟩

/-- `SpectralVertexNominator._embed`: validate the adjacency matrix, then
compute and store the embedding via the provider only when no embedding is
currently stored. Returns the post-state and the number of provider
invocations (0 or 1). `prov` stands for `self.embeder.fit_transform`. -/
def _embed (prov : Embeder → AdjArr → List (List ℚ)) (st : Nominator) (X : AdjArr) :
    Nominator × Except Err ℕ :=
  if st.multigraph then (st, .error (.notImplementedError "Multigraph SVN not implemented"))
  else if !X.numeric then (st, .error (.typeError "Adjacency matrix should have numeric type"))
  else if X.ndim ≠ 2 then (st, .error (.indexError "Argument must have dim 2"))
  else if X.nrows ≠ X.ncols then (st, .error (.indexError "Adjacency Matrix should be square."))
  else
    match st.embedding with
    | none =>
      match st.embeder with
      | some e => ({st with embedding := some ⟨2, prov e X⟩}, .ok 1)
      | none => (st, .error (.attributeError "embeder is not set"))
    | some _ => (st, .ok 0)

/-- `SpectralVertexNominator._pairwise_dist`: select the embedding rows at the
seed vertex indices (column 0 of the normalized seed) and compute all
pairwise distances to every vertex row. `metric` stands for the external
`scipy.spatial.distance.cdist` metric. -/
def _pairwise_dist (metric : List ℚ → List ℚ → ℚ) (st : Nominator)
    (y2 : List (List ℤ)) : Except Err (List (List ℚ)) :=
  match st.embedding with
  | none => .error (.typeError "NoneType object is not subscriptable")
  | some emb =>
    match col 0 y2 with
    | .error e => .error e
    | .ok idxs =>
      match mapE (fun z =>
          match npIdx emb.rows.length z with
          | .error e => .error e
          | .ok i => .ok (emb.rows.getD i [])) idxs with
      | .error e => .error e
      | .ok yvec => .ok (emb.rows.map (fun vrow => yvec.map (fun srow => metric vrow srow)))

/-- The embedding-acquisition step of `fit` (lines 242-248): when persistence
does not protect an existing embedding, require an adjacency matrix and run
`_embed` on it; otherwise do nothing. -/
def fitStep (prov : Embeder → AdjArr → List (List ℚ)) (st : Nominator)
    (X : Option AdjArr) : Nominator × Except Err ℕ :=
  if !st.persistent || st.embedding.isNone then
    match X with
    | none => (st, .error (.valueError "Adjacency matrix must be provided if embedding is None."))
    | some a => _embed prov st a
  else (st, .ok 0)

/-- `SpectralVertexNominator.fit`: normalize the seed, acquire the embedding
when not protected by persistence, then rebuild the seed-derived state
(attribute labels, unique attributes, distance matrix, in that order).
Returns the post-state, and on success the number of embedding-provider
invocations. -/
def fit (prov : Embeder → AdjArr → List (List ℚ)) (metric : List ℚ → List ℚ → ℚ)
    (st : Nominator) (X : Option AdjArr) (y : Seed) : Nominator × Except Err ℕ :=
  match _make_2d y with
  | .error e => (st, .error e)
  | .ok y2 =>
    match fitStep prov st X with
    | (st1, .error e) => (st1, .error e)
    | (st1, .ok cnt) =>
      match col 1 y2 with
      | .error e => (st1, .error e)
      | .ok labels =>
        let st2 : Nominator :=
          {st1 with attr_labels := some labels, unique_att := some (npUnique labels)}
        match _pairwise_dist metric st2 y2 with
        | .error e => (st2, .error e)
        | .ok dm => ({st2 with distance_matrix := some dm}, .ok cnt)

/-- The distances, among the `k` nearest seed entries of a vertex with
distance row `row`, to the seed entries carrying attribute `a`. This is the
per-(attribute, vertex) slice of `nd_buffer` after the NaN masking: the
argsorted positions are cut to `k`, kept where the looked-up label matches,
and mapped back to the sorted distances. -/
def matchedDists (al : List ℤ) (a : ℤ) (row : List ℚ) (k : ℕ) : List ℚ :=
  (((argsortQ row).take k).filter (fun j => decide (al.getD j 0 = a))).map
    (fun j => row.getD j 0)

/-- `np.nansum(np.power(nd_buffer, -1), axis=2)` on one slice: the sum of
inverse distances over the matched entries. A zero distance contributes
`1/0 = np.inf` which absorbs the (finite) rest of the sum; an empty slice
sums to 0 (numpy nansum of an all-NaN slice). -/
def sumInv (ds : List ℚ) : Score :=
  if ds.contains 0 then .inf else .fin ((ds.map (fun d => 1 / d)).sum)

/-- The outer `np.power(·, -1)`: float64 reciprocal extended to the infinity
produced by the inner sum (`inf⁻¹ = 0`, `0⁻¹ = inf`). The code's subsequent
NaN-to-inf replacement is subsumed: an empty slice gives `0⁻¹ = inf`. -/
def scoreOf : Score → Score
  | .inf => .fin 0
  | .fin q => if q = 0 then .inf else .fin (1 / q)

/-- The aggregated score of one vertex (distance row `row`) for attribute
value `a`: `pred_weights` at that vertex and attribute. -/
def vertexScore (al : List ℤ) (k : ℕ) (row : List ℚ) (a : ℤ) : Score :=
  scoreOf (sumInv (matchedDists al a row k))

/-- The full `pred_weights` matrix, rows = vertices, columns = positions in
the unique-attribute list. -/
def scoreMatrix (dm : List (List ℚ)) (al ua : List ℤ) (k : ℕ) : List (List Score) :=
  dm.map (fun row => ua.map (fun a => vertexScore al k row a))

/-- Column `a` of `pred_weights`. -/
def scoreCol (pw : List (List Score)) (a : ℕ) : List Score :=
  pw.map (fun r => r.getD a (.fin 0))

/-- `vert_order = np.argsort(pred_weights, axis=0)` held column-wise:
entry `a` is the vertex ranking for the attribute at position `a`. -/
def orderCols (pw : List (List Score)) (m : ℕ) : List (List ℕ) :=
  (List.range m).map (fun a => argsortS (scoreCol pw a))

/-- `vert_order` in its actual (n, m) row-major layout. -/
def orderRows (oc : List (List ℕ)) (n m : ℕ) : List (List ℕ) :=
  (List.range n).map (fun r => (List.range m).map (fun j => (oc.getD j []).getD r 0))

/-- The final score gather
`pred_weights[inds[:, 0], inds[:, 1]].reshape(vert_order.shape)`:
position (r, j) reads `pred_weights` at row `vert_order[r, j]` and at the
column addressed by the attribute VALUE `unique_att[j]` (not the attribute
position j), with numpy integer-indexing semantics on the column axis. -/
def predScores (pw : List (List Score)) (oc : List (List ℕ)) (ua : List ℤ)
    (n m : ℕ) : Except Err (List (List Score)) :=
  mapE (fun r =>
    mapE (fun j =>
      match npIdx m (ua.getD j 0) with
      | .error e => .error e
      | .ok c => .ok ((pw.getD ((oc.getD j []).getD r 0) []).getD c (.fin 0)))
      (List.range m))
    (List.range n)

/-- `SpectralVertexNominator._predict` with the only implemented neighbor
function, `sum_inverse_distance`. The guard models the fancy-indexing bound
check of `self.attr_labels[ordered[:, :k]]` (out of bounds when the distance
matrix is wider than the label vector). -/
structure PredictOut where
  order : List (List ℕ)
  scores : List (List Score)
deriving DecidableEq, Repr

def _predict (dm : List (List ℚ)) (al ua : List ℤ) (k : ℕ) : Except Err PredictOut :=
  if dm.all (fun row => ((argsortQ row).take k).all (fun j => decide (j < al.length))) then
    match predScores (scoreMatrix dm al ua k) (orderCols (scoreMatrix dm al ua k) ua.length)
        ua dm.length ua.length with
    | .error e => .error e
    | .ok sc =>
      .ok ⟨orderRows (orderCols (scoreMatrix dm al ua k) ua.length) dm.length ua.length, sc⟩
  else .error (.indexError "index out of bounds in attribute label lookup")

/-- `SpectralVertexNominator.predict`: validate `k`, then dispatch to
`_predict` with `k` overridden to the seed count in the unattributed case
(every label unique). Reading `.shape[0]` of unset state raises
`AttributeError` as in Python. -/
def predict (st : Nominator) (k : PyNum) : Except Err PredictOut :=
  match k with
  | .nonInt => .error (.typeError "k must be an integer")
  | .int z =>
    if z ≤ 0 then .error (.valueError "k must be greater than 0")
    else
      match st.unique_att, st.attr_labels, st.distance_matrix with
      | some ua, some al, some dm =>
        if ua.length = al.length then _predict dm al ua ua.length
        else _predict dm al ua z.toNat
      | _, _, _ => .error (.attributeError "NoneType object has no attribute shape")

/-- `SpectralVertexNominator.fit_transform`: `fit` then `predict`. -/
def fit_transform (prov : Embeder → AdjArr → List (List ℚ))
    (metric : List ℚ → List ℚ → ℚ) (st : Nominator) (X : Option AdjArr) (y : Seed)
    (k : PyNum) : Nominator × Except Err PredictOut :=
  match fit prov metric st X y with
  | (st1, .error e) => (st1, .error e)
  | (st1, .ok _) => (st1, predict st1 k)

/-- Provider, metric, adjacency and seed for the C1 scenario: a Nominator
constructed with persistent=False and no embedding, fit twice on the same
valid adjacency matrix. -/
def c1prov : Embeder → AdjArr → List (List ℚ) := fun _ _ => [[0], [1]]

def c1met : List ℚ → List ℚ → ℚ := fun _ _ => 0

def c1A : AdjArr := ⟨true, 2, 2, 2, [[0, 1], [1, 0]]⟩

def c1st0 : Nominator := ⟨none, some .ase, false, false, none, none, none⟩

def c1st1 : Nominator :=
  ⟨some ⟨2, [[0], [1]]⟩, some .ase, false, false, some [0], some [0], some [[0], [0]]⟩

/-- A fitted state whose two attribute labels are -2 and 0 (reachable by
fitting with seed rows [[0, -2], [1, 0]] on a 2-vertex embedding): the
unique-attribute values are not the positions 0..m-1. -/
def c2state : Nominator :=
  ⟨none, none, true, false, some [-2, 0], some [-2, 0], some [[1, 2], [3, 4]]⟩

/-- Column `j` of a rational matrix given as rows. -/
def colQ (rows : List (List ℚ)) (j : ℕ) : List ℚ := rows.map (fun r => r.getD j 0)

/-- Column `j` of a natural-number matrix given as rows. -/
def colNat (rows : List (List ℕ)) (j : ℕ) : List ℕ := rows.map (fun r => r.getD j 0)

/-- `pred_weights[v, a]`, read with the same defaulted accesses the ranking
code uses. -/
def scoreAt (dm : List (List ℚ)) (al ua : List ℤ) (k v a : ℕ) : Score :=
  ((scoreMatrix dm al ua k).getD v []).getD a (.fin 0)

theorem insIdx_perm (le : ℕ → ℕ → Bool) (x : ℕ) (l : List ℕ) :
    List.Perm (insIdx le x l) (x :: l) := by
  induction l with
  | nil => simp [insIdx]
  | cons y ys ih =>
    simp only [insIdx]
    split
    · exact List.Perm.refl _
    · exact ((ih.cons y).trans (List.Perm.swap x y ys))

theorem sortIdx_perm (le : ℕ → ℕ → Bool) (l : List ℕ) : List.Perm (sortIdx le l) l := by
  induction l with
  | nil => simp [sortIdx]
  | cons x xs ih => exact (insIdx_perm le x (sortIdx le xs)).trans (ih.cons x)

theorem mem_insIdx {le : ℕ → ℕ → Bool} {x a : ℕ} {l : List ℕ} :
    a ∈ insIdx le x l ↔ a = x ∨ a ∈ l := by
  rw [(insIdx_perm le x l).mem_iff]
  simp

theorem pairwise_insIdx {le : ℕ → ℕ → Bool}
    (htot : ∀ a b, le a b = false → le b a = true)
    (htr : ∀ a b c, le a b = true → le b c = true → le a c = true)
    {x : ℕ} {l : List ℕ} (hl : l.Pairwise (fun a b => le a b = true)) :
    (insIdx le x l).Pairwise (fun a b => le a b = true) := by
  induction l with
  | nil => simp [insIdx]
  | cons y ys ih =>
    rw [List.pairwise_cons] at hl
    obtain ⟨hy, hys⟩ := hl
    simp only [insIdx]
    split
    · rename_i hxy
      refine List.pairwise_cons.mpr ⟨?_, List.pairwise_cons.mpr ⟨hy, hys⟩⟩
      intro b hb
      rcases List.mem_cons.mp hb with hb | hb
      · subst hb; exact hxy
      · exact htr x y b hxy (hy b hb)
    · rename_i hxy
      refine List.pairwise_cons.mpr ⟨?_, ih hys⟩
      intro b hb
      rcases mem_insIdx.mp hb with hb | hb
      · rw [hb]; exact htot x y (Bool.eq_false_iff.mpr hxy)
      · exact hy b hb

theorem pairwise_sortIdx {le : ℕ → ℕ → Bool}
    (htot : ∀ a b, le a b = false → le b a = true)
    (htr : ∀ a b c, le a b = true → le b c = true → le a c = true)
    (l : List ℕ) : (sortIdx le l).Pairwise (fun a b => le a b = true) := by
  induction l with
  | nil => simp [sortIdx]
  | cons x xs ih => exact pairwise_insIdx htot htr ih

/-- The index comparator is total (no assumption on `lt` needed). -/
theorem cmpIdx_total (lt : α → α → Bool) (d : α) (l : List α) :
    ∀ i j, cmpIdx lt d l i j = false → cmpIdx lt d l j i = true := by
  intro i j h
  unfold cmpIdx at h ⊢
  cases hij : lt (l.getD i d) (l.getD j d) with
  | true => rw [hij] at h; simp at h
  | false =>
    rw [hij] at h
    cases hji : lt (l.getD j d) (l.getD i d) with
    | true => simp [hji]
    | false =>
      rw [hji] at h
      simp only [Bool.not_false, Bool.true_and, Bool.false_or] at h
      have hnij : ¬ (i ≤ j) := of_decide_eq_false h
      simp only [Bool.not_false, Bool.true_and, Bool.false_or]
      exact decide_eq_true (Nat.le_of_lt (Nat.lt_of_not_le hnij))

/-- Transitivity of the lexicographic (value, index) comparison, provided
`lt` is a strict total order: asymmetric, transitive, and with incomparable
elements equal. -/
theorem lexLe_trans {lt : α → α → Bool}
    (hasym : ∀ a b, lt a b = true → lt b a = false)
    (htr : ∀ a b c, lt a b = true → lt b c = true → lt a c = true)
    (hconn : ∀ a b, lt a b = false → lt b a = false → a = b)
    (vi vj vk : α) (i j k : ℕ)
    (hij : (lt vi vj || (!lt vj vi && decide (i ≤ j))) = true)
    (hjk : (lt vj vk || (!lt vk vj && decide (j ≤ k))) = true) :
    (lt vi vk || (!lt vk vi && decide (i ≤ k))) = true := by
  have hirr : ∀ a, lt a a = false := by
    intro a
    cases h : lt a a with
    | false => rfl
    | true => exact h ▸ hasym a a h
  have hcase : ∀ (a b : α) (m n : ℕ), (lt a b || (!lt b a && decide (m ≤ n))) = true →
      lt a b = true ∨ (a = b ∧ m ≤ n) := by
    intro a b m n h
    rcases Bool.or_eq_true_iff.mp h with h | h
    · exact Or.inl h
    · obtain ⟨h1, h2⟩ := Bool.and_eq_true_iff.mp h
      cases hab : lt a b with
      | true => exact Or.inl rfl
      | false =>
        have h1' : lt b a = false := by simpa using h1
        exact Or.inr ⟨hconn a b hab h1', of_decide_eq_true h2⟩
  have hout : ∀ (a b : α) (m n : ℕ), lt a b = true ∨ (a = b ∧ m ≤ n) →
      (lt a b || (!lt b a && decide (m ≤ n))) = true := by
    intro a b m n h
    rcases h with h | ⟨h1, h2⟩
    · rw [h]; rfl
    · subst h1
      rw [hirr a]
      simp [h2]
  rcases hcase _ _ _ _ hij with hij1 | ⟨hij1, hmn⟩ <;>
    rcases hcase _ _ _ _ hjk with hjk1 | ⟨hjk1, hnk⟩
  · exact hout _ _ _ _ (Or.inl (htr _ _ _ hij1 hjk1))
  · exact hout _ _ _ _ (Or.inl (hjk1 ▸ hij1))
  · exact hout _ _ _ _ (Or.inl (hij1 ▸ hjk1))
  · subst hij1
    exact hout _ _ _ _ (Or.inr ⟨hjk1, Nat.le_trans hmn hnk⟩)

/-- Transitivity of the index comparator. -/
theorem cmpIdx_trans (lt : α → α → Bool) (d : α) (l : List α)
    (hasym : ∀ a b, lt a b = true → lt b a = false)
    (htr : ∀ a b c, lt a b = true → lt b c = true → lt a c = true)
    (hconn : ∀ a b, lt a b = false → lt b a = false → a = b) :
    ∀ i j k, cmpIdx lt d l i j = true → cmpIdx lt d l j k = true →
      cmpIdx lt d l i k = true := by
  intro i j k hij hjk
  exact lexLe_trans hasym htr hconn _ _ _ i j k hij hjk

theorem argsortBy_perm (lt : α → α → Bool) (d : α) (l : List α) :
    List.Perm (argsortBy lt d l) (List.range l.length) :=
  sortIdx_perm _ _

theorem length_argsortBy (lt : α → α → Bool) (d : α) (l : List α) :
    (argsortBy lt d l).length = l.length := by
  rw [(argsortBy_perm lt d l).length_eq, List.length_range]

theorem mem_argsortBy {lt : α → α → Bool} {d : α} {l : List α} {j : ℕ} :
    j ∈ argsortBy lt d l ↔ j < l.length := by
  rw [(argsortBy_perm lt d l).mem_iff, List.mem_range]

theorem nodup_argsortBy (lt : α → α → Bool) (d : α) (l : List α) :
    (argsortBy lt d l).Nodup :=
  ((argsortBy_perm lt d l).nodup_iff).mpr (List.nodup_range _)

theorem pairwise_argsortBy (lt : α → α → Bool) (d : α) (l : List α)
    (hasym : ∀ a b, lt a b = true → lt b a = false)
    (htr : ∀ a b c, lt a b = true → lt b c = true → lt a c = true)
    (hconn : ∀ a b, lt a b = false → lt b a = false → a = b) :
    (argsortBy lt d l).Pairwise (fun a b => cmpIdx lt d l a b = true) :=
  pairwise_sortIdx (cmpIdx_total lt d l) (cmpIdx_trans lt d l hasym htr hconn) _

theorem qlt_asym : ∀ a b : ℚ, qlt a b = true → qlt b a = false := by
  intro a b h
  simp only [qlt, decide_eq_true_eq, decide_eq_false_iff_not, not_lt] at h ⊢
  exact le_of_lt h

theorem qlt_trans : ∀ a b c : ℚ, qlt a b = true → qlt b c = true → qlt a c = true := by
  intro a b c h1 h2
  simp only [qlt, decide_eq_true_eq] at h1 h2 ⊢
  exact lt_trans h1 h2

theorem qlt_conn : ∀ a b : ℚ, qlt a b = false → qlt b a = false → a = b := by
  intro a b h1 h2
  simp only [qlt, decide_eq_false_iff_not, not_lt] at h1 h2
  exact le_antisymm h2 h1

theorem slt_asym : ∀ a b : Score, Score.lt a b = true → Score.lt b a = false := by
  intro a b h
  cases a <;> cases b <;> simp_all [Score.lt]
  rename_i qa qb
  exact le_of_lt h

theorem slt_trans : ∀ a b c : Score,
    Score.lt a b = true → Score.lt b c = true → Score.lt a c = true := by
  intro a b c h1 h2
  cases a <;> cases b <;> cases c <;> simp_all [Score.lt]
  rename_i qa qb qc
  exact lt_trans h1 h2

theorem slt_conn : ∀ a b : Score, Score.lt a b = false → Score.lt b a = false → a = b := by
  intro a b h1 h2
  cases a <;> cases b <;> simp_all [Score.lt]
  rename_i qa qb
  exact le_antisymm h2 h1

/-- In a pairwise-sorted list, an element strictly below another
(`le u v` but not `le v u`) occurs strictly earlier. -/
theorem indexOf_lt_indexOf_of_pairwise {le : ℕ → ℕ → Bool} {l : List ℕ} {u v : ℕ}
    (hpw : l.Pairwise (fun a b => le a b = true))
    (hu : u ∈ l) (hv : v ∈ l) (huv : le u v = true) (hvu : le v u = false) :
    l.indexOf u < l.indexOf v := by
  have hul : l.indexOf u < l.length := List.indexOf_lt_length.mpr hu
  have hvl : l.indexOf v < l.length := List.indexOf_lt_length.mpr hv
  have hune : u ≠ v := by
    intro h
    subst h
    rw [huv] at hvu
    exact Bool.noConfusion hvu
  rcases Nat.lt_trichotomy (l.indexOf u) (l.indexOf v) with h | h | h
  · exact h
  · exact absurd (by
      have h1 : l.get ⟨l.indexOf u, hul⟩ = u := List.indexOf_get hul
      have h2 : l.get ⟨l.indexOf v, hvl⟩ = v := List.indexOf_get hvl
      rw [← h1, ← h2]
      congr 1
      exact Fin.ext h) hune
  · have hpw' := List.pairwise_iff_getElem.mp hpw
    have := hpw' (l.indexOf v) (l.indexOf u) hvl hul h
    have h1 : l[l.indexOf u] = u := List.indexOf_get hul
    have h2 : l[l.indexOf v] = v := List.indexOf_get hvl
    rw [h1, h2] at this
    rw [this] at hvu
    exact absurd hvu (by simp)

theorem getD_map_range {f : ℕ → α} {m i : ℕ} {d : α} (h : i < m) :
    ((List.range m).map f).getD i d = f i := by
  rw [List.getD_eq_getElem _ _ (by simpa using h)]
  simp

theorem map_getD_range (l : List α) (d : α) :
    (List.range l.length).map (fun r => l.getD r d) = l := by
  apply List.ext_getElem
  · simp
  · intro i h1 h2
    rw [List.getElem_map, List.getElem_range, List.getD_eq_getElem _ _ h2]

theorem getD_map_fin (l : List ℚ) (i : ℕ) :
    (l.map Score.fin).getD i (.fin 0) = .fin (l.getD i 0) := by
  induction l generalizing i with
  | nil => simp [List.getD]
  | cons x xs ih =>
    cases i with
    | zero => simp
    | succ n => simp only [List.map_cons, List.getD_cons_succ]; exact ih n

theorem mapE_ok_map {f : α → Except Err β} (g : α → β) {l : List α}
    (h : ∀ a ∈ l, f a = .ok (g a)) : mapE f l = .ok (l.map g) := by
  induction l with
  | nil => rfl
  | cons a l ih =>
    simp only [mapE, h a (List.mem_cons_self a l), ih (fun b hb => h b (List.mem_cons_of_mem a hb))]
    rfl

theorem mapE_ok_of {f : α → Except Err β} {l : List α}
    (h : ∀ a ∈ l, ∃ b, f a = .ok b) : ∃ bs, mapE f l = .ok bs := by
  induction l with
  | nil => exact ⟨[], rfl⟩
  | cons a l ih =>
    obtain ⟨b, hb⟩ := h a (List.mem_cons_self a l)
    obtain ⟨bs, hbs⟩ := ih (fun c hc => h c (List.mem_cons_of_mem a hc))
    exact ⟨b :: bs, by simp [mapE, hb, hbs]⟩

theorem mapE_error {f : α → Except Err β} {l : List α} {e : Err}
    (h : mapE f l = .error e) : ∃ a ∈ l, f a = .error e := by
  induction l with
  | nil => exact absurd h (by simp [mapE])
  | cons a l ih =>
    simp only [mapE] at h
    cases hfa : f a with
    | error e' =>
      rw [hfa] at h
      exact ⟨a, List.mem_cons_self a l, by rw [hfa]; injection h with h; rw [h]⟩
    | ok b =>
      rw [hfa] at h
      cases hml : mapE f l with
      | error e' =>
        rw [hml] at h
        injection h with h
        subst h
        obtain ⟨c, hc, hce⟩ := ih hml
        exact ⟨c, List.mem_cons_of_mem a hc, hce⟩
      | ok bs => rw [hml] at h; exact Except.noConfusion h

theorem npIdx_error {n : ℕ} {z : ℤ} {e : Err} (h : npIdx n z = .error e) :
    e = .indexError "index out of bounds" := by
  unfold npIdx at h
  split at h
  · exact Except.noConfusion h
  · split at h
    · exact Except.noConfusion h
    · injection h with h; exact h.symm

theorem npIdx_ok_of_nonneg {n : ℕ} {z : ℤ} (h0 : 0 ≤ z) (hn : z < (n : ℤ)) :
    npIdx n z = .ok z.toNat := by
  unfold npIdx
  rw [if_pos ⟨h0, hn⟩]

theorem npIdx_ok_of_neg {n : ℕ} {z : ℤ} (h0 : z < 0) (hn : -(n : ℤ) ≤ z) :
    npIdx n z = .ok ((n : ℤ) + z).toNat := by
  unfold npIdx
  rw [if_neg (by omega), if_pos ⟨hn, h0⟩]

theorem zipWith_pair_col0 (xs idxs : List ℤ) (h : idxs.length = xs.length) :
    (List.zipWith (fun x i => [x, i]) xs idxs).map (fun r => r.getD 0 0) = xs := by
  induction xs generalizing idxs with
  | nil => simp
  | cons x xs ih =>
    cases idxs with
    | nil => simp at h
    | cons i idxs =>
      simp only [List.zipWith_cons_cons, List.map_cons, List.getD_cons_zero]
      rw [ih idxs (by simpa using h)]

theorem zipWith_pair_col1 (xs idxs : List ℤ) (h : idxs.length = xs.length) :
    (List.zipWith (fun x i => [x, i]) xs idxs).map (fun r => r.getD 1 0) = idxs := by
  induction xs generalizing idxs with
  | nil => cases idxs with
    | nil => simp
    | cons i idxs => simp at h
  | cons x xs ih =>
    cases idxs with
    | nil => simp at h
    | cons i idxs =>
      simp only [List.zipWith_cons_cons, List.map_cons, List.getD_cons_succ,
        List.getD_cons_zero]
      rw [ih idxs (by simpa using h)]

/-- C7: for every integer-typed 1-dimensional seed input of length n, and
likewise for every (n,1) input, seed normalization produces an (n,2) integer
array whose first column is the input indices and whose second column is the
synthetic labels 0..n-1 in order. -/
theorem c7_make2d_synthetic_labels (xs : List ℤ) :
    ∃ l, _make_2d (.d1 true xs) = .ok l ∧
      _make_2d (.d2 true (xs.map (fun x => [x])) 1) = .ok l ∧
      (∀ r ∈ l, r.length = 2) ∧
      l.map (fun r => r.getD 0 0) = xs ∧
      l.map (fun r => r.getD 1 0) = intRange xs.length := by
  refine ⟨List.zipWith (fun x i => [x, i]) xs (intRange xs.length),
    rfl, ?_, ?_, ?_, ?_⟩
  · have h1 : (xs.map (fun x => [x])).map (fun r => r.getD 0 0) = xs := by
      rw [List.map_map]
      have hc : ((fun (r : List ℤ) => r.getD 0 0) ∘ (fun x => [x])) = id := by
        funext x
        rfl
      rw [hc, List.map_id]
    have h2 : (xs.map (fun x => [x])).length = xs.length := List.length_map _ _
    show _make_2d (.d2 true (xs.map (fun x => [x])) 1) = _
    simp only [_make_2d]
    rw [if_pos trivial, h1, h2, if_neg (by norm_num)]
  · intro r hr
    rw [List.mem_iff_getElem] at hr
    obtain ⟨i, hi, hr⟩ := hr
    rw [List.getElem_zipWith] at hr
    rw [← hr]
    rfl
  · exact zipWith_pair_col0 _ _ (by rw [intRange, List.length_map, List.length_range])
  · exact zipWith_pair_col1 _ _ (by rw [intRange, List.length_map, List.length_range])

/-- C9: a constructor call supplying a non-2-dimensional embedding together
with persistent=False succeeds without raising; the 2-dimensionality check on
a supplied embedding runs only on the persistent path. -/
theorem c9_non2d_embedding_accepted_when_not_persistent (e : EmbArr) (hnd : e.ndim ≠ 2) :
    init (some e) (.name "ASE") false =
      .ok ⟨some e, some .ase, false, false, none, none, none⟩ := by
  unfold init
  rw [if_pos (by simp)]
  rfl

/-- Witness for C9 at a concrete 3-dimensional embedding. -/
theorem c9_non2d_embedding_accepted_when_not_persistent_witness :
    init (some ⟨3, [[1]]⟩) (.name "ASE") false =
      .ok ⟨some ⟨3, [[1]]⟩, some .ase, false, false, none, none, none⟩ :=
  c9_non2d_embedding_accepted_when_not_persistent ⟨3, [[1]]⟩ (by decide)

theorem embed_error_of_bad (prov : Embeder → AdjArr → List (List ℚ)) (st : Nominator)
    (a : AdjArr) (hbad : a.numeric = false ∨ a.ndim ≠ 2 ∨ a.nrows ≠ a.ncols) :
    ∃ e, _embed prov st a = (st, .error e) := by
  unfold _embed
  split_ifs with h1 h2 h3 h4
  · exact ⟨_, rfl⟩
  · exact ⟨_, rfl⟩
  · exact ⟨_, rfl⟩
  · exact ⟨_, rfl⟩
  · exfalso
    rcases hbad with h | h | h
    · rw [h] at h2; simp at h2
    · exact h3 h
    · exact h4 h

/-- C8: if `fit` raises because the adjacency validation fails (X is None
while the acquisition branch is active, or X is non-numeric, not
2-dimensional, or not square), the seed-derived state (attr_labels,
unique_att, distance_matrix) keeps its values from before the call: the
whole post-state equals the pre-state. -/
theorem c8_fit_adjacency_failure_preserves_seed_state
    (prov : Embeder → AdjArr → List (List ℚ)) (metric : List ℚ → List ℚ → ℚ)
    (st : Nominator) (X : Option AdjArr) (y : Seed) (y2 : List (List ℤ))
    (hy : _make_2d y = .ok y2)
    (hbr : st.persistent = false ∨ st.embedding = none)
    (hbad : X = none ∨ ∃ a, X = some a ∧
      (a.numeric = false ∨ a.ndim ≠ 2 ∨ a.nrows ≠ a.ncols)) :
    ∃ e, fit prov metric st X y = (st, .error e) ∧
      (fit prov metric st X y).1.attr_labels = st.attr_labels ∧
      (fit prov metric st X y).1.unique_att = st.unique_att ∧
      (fit prov metric st X y).1.distance_matrix = st.distance_matrix := by
  have hcond : (!st.persistent || st.embedding.isNone) = true := by
    rcases hbr with h | h
    · rw [h]; rfl
    · rw [h]; simp
  have hstep : ∃ e, fitStep prov st X = (st, .error e) := by
    unfold fitStep
    rw [hcond, if_pos rfl]
    rcases hbad with hX | ⟨a, hX, hbad⟩
    · rw [hX]
      exact ⟨_, rfl⟩
    · rw [hX]
      exact embed_error_of_bad prov st a hbad
  obtain ⟨e, he⟩ := hstep
  refine ⟨e, ?_, ?_, ?_, ?_⟩ <;> simp only [fit, hy, he]

/-- C1 (code bug): with persistent=False, the first `fit` on a valid
adjacency invokes the embedding provider once and stores its result, but a
second `fit` on the same adjacency performs ZERO provider invocations and
keeps the first embedding: `_embed` recomputes only when `self.embedding is
None`, so persistent=False does not overwrite an existing embedding,
contrary to the constructor docstring and the claim. -/
theorem c1_second_fit_skips_provider :
    init none (.name "ASE") false = .ok c1st0 ∧
    fit c1prov c1met c1st0 (some c1A) (.d1 true [0]) = (c1st1, .ok 1) ∧
    fit c1prov c1met c1st1 (some c1A) (.d1 true [0]) = (c1st1, .ok 0) ∧
    c1st1.embedding = some ⟨2, c1prov .ase c1A⟩ := by
  refine ⟨rfl, ?_, ?_, rfl⟩ <;> rfl

/-- C2 (code bug): the scores array returned by `predict` is NOT aligned
with the nomination order per attribute position when the attribute label
values differ from 0..m-1. The final gather indexes `pred_weights` columns by
the unique-attribute VALUES: here both score columns read column
`npIdx 2 (-2) = 0` resp. `npIdx 2 0 = 0`, so position (0, 1) holds 1, the
aggregated score of vertex `order[0][1] = 0` for attribute position 0, while
that vertex's aggregated score for attribute position 1 (label 0) is 2. -/
theorem c2_scores_misaligned_for_nonpositional_labels :
    predict c2state (.int 1) =
      .ok ⟨[[0, 0], [1, 1]], [[.fin 1, .fin 1], [.fin 3, .fin 3]]⟩ ∧
    vertexScore [-2, 0] 2 [1, 2] (([-2, 0] : List ℤ).getD 1 0) = .fin 2 ∧
    Score.fin 1 ≠ Score.fin 2 := by
  refine ⟨?_, ?_, by norm_num⟩
  · norm_num [predict, c2state, _predict, scoreMatrix, vertexScore, matchedDists, sumInv,
      scoreOf, argsortQ, argsortS, argsortBy, sortIdx, insIdx, cmpIdx, qlt, Score.lt,
      orderCols, orderRows, scoreCol, predScores, mapE, npIdx, List.range_succ]
  · norm_num [vertexScore, matchedDists, sumInv, scoreOf, argsortQ, argsortBy, sortIdx,
      insIdx, cmpIdx, qlt, List.range_succ]

theorem fitStep_reuse (prov : Embeder → AdjArr → List (List ℚ)) (st : Nominator)
    (X : Option AdjArr) (hp : st.persistent = true) (emb : EmbArr)
    (he : st.embedding = some emb) : fitStep prov st X = (st, .ok 0) := by
  unfold fitStep
  rw [if_neg (by rw [hp, he]; simp)]

/-- C10: `fit` does not validate seed vertex indices against the embedding
row count: a seed holding the negative index -i (1 ≤ i ≤ n) completes
without raising, and the distance matrix is computed against embedding row
n - i, addressed from the end. -/
theorem c10_fit_accepts_negative_seed_index
    (prov : Embeder → AdjArr → List (List ℚ)) (metric : List ℚ → List ℚ → ℚ)
    (emb : EmbArr) (i : ℕ) (h1 : 1 ≤ i) (h2 : i ≤ emb.rows.length) :
    fit prov metric ⟨some emb, none, true, false, none, none, none⟩ none
        (.d1 true [-(i : ℤ)]) =
      (⟨some emb, none, true, false, some [0], some [0],
        some (emb.rows.map
          (fun vrow => [metric vrow (emb.rows.getD (emb.rows.length - i) [])]))⟩,
       .ok 0) := by
  have hy : _make_2d (.d1 true [-(i : ℤ)]) = .ok [[-(i : ℤ), 0]] := rfl
  have hstep : fitStep prov ⟨some emb, none, true, false, none, none, none⟩ none =
      (⟨some emb, none, true, false, none, none, none⟩, .ok 0) :=
    fitStep_reuse _ _ _ rfl emb rfl
  have hnp : npIdx emb.rows.length (-(i : ℤ)) = .ok (emb.rows.length - i) := by
    rw [npIdx_ok_of_neg (by omega) (by omega)]
    congr 1
    omega
  have hc1 : col 1 [[-(i : ℤ), 0]] = .ok [0] := rfl
  have hc0 : col 0 [[-(i : ℤ), 0]] = .ok [-(i : ℤ)] := rfl
  have hpd : _pairwise_dist metric
      ⟨some emb, none, true, false, some [0], some [0], none⟩ [[-(i : ℤ), 0]] =
      .ok (emb.rows.map
        (fun vrow => [metric vrow (emb.rows.getD (emb.rows.length - i) [])])) := by
    have hm : mapE (fun z =>
        match npIdx emb.rows.length z with
        | .error e => .error e
        | .ok j => .ok (emb.rows.getD j [])) [-(i : ℤ)] =
        .ok [emb.rows.getD (emb.rows.length - i) []] := by
      unfold mapE
      rw [hnp]
      rfl
    simp only [_pairwise_dist, hc0, hm]
    rfl
  simp only [fit, hy, hstep, hc1, (show npUnique [0] = [0] from rfl), hpd]

/-- Witness for C10: a 3-row embedding, seed index -1, distances computed
against row 2 (the last row). -/
theorem c10_fit_accepts_negative_seed_index_witness :
    fit (fun _ _ => [[0], [1]]) (fun _ _ => 0)
        ⟨some ⟨2, [[0], [1], [2]]⟩, none, true, false, none, none, none⟩ none
        (.d1 true [-1]) =
      (⟨some ⟨2, [[0], [1], [2]]⟩, none, true, false, some [0], some [0],
        some [[0], [0], [0]]⟩, .ok 0) :=
  c10_fit_accepts_negative_seed_index (fun _ _ => [[0], [1]]) (fun _ _ => 0)
    ⟨2, [[0], [1], [2]]⟩ 1 (by decide) (by decide)

/-- C5: a Nominator constructed with persistent=True and a supplied
2-dimensional embedding: `fit` with adjacency=None and a valid seed does not
raise, performs zero provider invocations, and leaves the stored embedding
unchanged. -/
theorem c5_persistent_reuse_fit_keeps_embedding
    (prov : Embeder → AdjArr → List (List ℚ)) (metric : List ℚ → List ℚ → ℚ)
    (emb : EmbArr) (earg : EmbederArg) (st : Nominator)
    (hinit : init (some emb) earg true = .ok st)
    (y : Seed) (y2 : List (List ℤ)) (hy : _make_2d y = .ok y2)
    (labels : List ℤ) (hc1 : col 1 y2 = .ok labels)
    (idxs : List ℤ) (hc0 : col 0 y2 = .ok idxs)
    (hrange : ∀ z ∈ idxs, -(emb.rows.length : ℤ) ≤ z ∧ z < (emb.rows.length : ℤ)) :
    ∃ st', fit prov metric st none y = (st', .ok 0) ∧ st'.embedding = some emb := by
  have hst : st = ⟨some emb, none, true, false, none, none, none⟩ := by
    simp only [init] at hinit
    rw [if_neg (by simp)] at hinit
    split at hinit
    · exact absurd hinit (by simp)
    · injection hinit with h
      exact h.symm
  subst hst
  have hstep : fitStep prov ⟨some emb, none, true, false, none, none, none⟩ none =
      (⟨some emb, none, true, false, none, none, none⟩, .ok 0) :=
    fitStep_reuse _ _ _ rfl emb rfl
  obtain ⟨yvec, hyv⟩ := mapE_ok_of (f := fun z =>
      match npIdx emb.rows.length z with
      | .error e => .error e
      | .ok j => .ok (emb.rows.getD j [])) (l := idxs) (fun z hz => by
    rcases hrange z hz with ⟨hl, hr⟩
    by_cases h0 : 0 ≤ z
    · exact ⟨emb.rows.getD z.toNat [], by simp only [npIdx_ok_of_nonneg h0 hr]⟩
    · exact ⟨emb.rows.getD ((emb.rows.length : ℤ) + z).toNat [],
        by simp only [npIdx_ok_of_neg (by omega) hl]⟩)
  have hpd : _pairwise_dist metric
      ⟨some emb, none, true, false, some labels, some (npUnique labels), none⟩ y2 =
      .ok (emb.rows.map (fun vrow => yvec.map (fun srow => metric vrow srow))) := by
    simp only [_pairwise_dist, hc0, hyv]
  refine ⟨⟨some emb, none, true, false, some labels, some (npUnique labels),
    some (emb.rows.map (fun vrow => yvec.map (fun srow => metric vrow srow)))⟩, ?_, rfl⟩
  simp only [fit, hy, hstep, hc1, hpd]

/-- Witness for C5 at a concrete reuse-mode Nominator and seed [0]. -/
theorem c5_persistent_reuse_fit_keeps_embedding_witness :
    ∃ st', fit (fun _ _ => [[0], [1]]) (fun _ _ => 0)
        ⟨some ⟨2, [[0], [1]]⟩, none, true, false, none, none, none⟩ none (.d1 true [0]) =
      (st', .ok 0) ∧ st'.embedding = some ⟨2, [[0], [1]]⟩ :=
  c5_persistent_reuse_fit_keeps_embedding (fun _ _ => [[0], [1]]) (fun _ _ => 0)
    ⟨2, [[0], [1]]⟩ (.obj (.custom 0)) _ rfl (.d1 true [0]) [[0, 0]] rfl [0] rfl [0] rfl
    (by decide)

theorem predScores_error {pw : List (List Score)} {oc : List (List ℕ)} {ua : List ℤ}
    {n m : ℕ} {e : Err} (h : predScores pw oc ua n m = .error e) :
    e = .indexError "index out of bounds" := by
  obtain ⟨r, _, hr⟩ := mapE_error h
  obtain ⟨j, _, hj⟩ := mapE_error hr
  revert hj
  cases hnp : npIdx m (ua.getD j 0) with
  | error e' =>
    intro hj
    simp only [hnp] at hj
    injection hj with hj
    rw [← hj]
    exact npIdx_error hnp
  | ok c =>
    intro hj
    simp only [hnp] at hj
    exact Except.noConfusion hj

theorem _predict_error {dm : List (List ℚ)} {al ua : List ℤ} {k : ℕ} {e : Err}
    (h : _predict dm al ua k = .error e) : ∃ s, e = .indexError s := by
  unfold _predict at h
  split at h
  · cases hps : predScores (scoreMatrix dm al ua k) (orderCols (scoreMatrix dm al ua k)
        ua.length) ua dm.length ua.length with
    | error e' =>
      rw [hps] at h
      injection h with h
      exact ⟨"index out of bounds", by rw [← h]; exact predScores_error hps⟩
    | ok sc =>
      rw [hps] at h
      exact Except.noConfusion h
  · injection h with h
    exact ⟨"index out of bounds in attribute label lookup", h.symm⟩

/-- C6: on any fitted state, `predict` raises TypeError when k is not an
integer and ValueError when k is a non-positive integer; for positive integer
k neither of those validation errors occurs (any error the ranking itself
raises is an IndexError). -/
theorem c6_predict_validates_k (st : Nominator) (ua al : List ℤ) (dm : List (List ℚ))
    (hua : st.unique_att = some ua) (hal : st.attr_labels = some al)
    (hdm : st.distance_matrix = some dm) :
    (predict st .nonInt = .error (.typeError "k must be an integer")) ∧
    (∀ z : ℤ, z ≤ 0 → predict st (.int z) = .error (.valueError "k must be greater than 0")) ∧
    (∀ z : ℤ, 0 < z → ∀ e, predict st (.int z) = .error e → ∃ s, e = .indexError s) := by
  refine ⟨rfl, ?_, ?_⟩
  · intro z hz
    simp only [predict, if_pos hz]
  · intro z hz e h
    have hpr : predict st (.int z) =
        if ua.length = al.length then _predict dm al ua ua.length
        else _predict dm al ua z.toNat := by
      simp only [predict, hua, hal, hdm]
      rw [if_neg (by omega)]
    rw [hpr] at h
    split at h
    · exact _predict_error h
    · exact _predict_error h

theorem c6_predict_validates_k_witness :
    predict ⟨none, none, true, false, some [0], some [0], some [[0]]⟩ .nonInt =
      .error (.typeError "k must be an integer") ∧
    predict ⟨none, none, true, false, some [0], some [0], some [[0]]⟩ (.int 0) =
      .error (.valueError "k must be greater than 0") :=
  ⟨(c6_predict_validates_k ⟨none, none, true, false, some [0], some [0], some [[0]]⟩
      [0] [0] [[0]] rfl rfl rfl).1,
   (c6_predict_validates_k ⟨none, none, true, false, some [0], some [0], some [[0]]⟩
      [0] [0] [[0]] rfl rfl rfl).2.1 0 (by decide)⟩

theorem length_argsortQ (l : List ℚ) : (argsortQ l).length = l.length :=
  length_argsortBy _ _ _

theorem mem_argsortQ {l : List ℚ} {j : ℕ} : j ∈ argsortQ l ↔ j < l.length :=
  mem_argsortBy

theorem nodup_argsortQ (l : List ℚ) : (argsortQ l).Nodup := nodup_argsortBy _ _ _

theorem length_intRange (n : ℕ) : (intRange n).length = n := by
  rw [intRange, List.length_map, List.length_range]

theorem getD_intRange {n i : ℕ} (h : i < n) : (intRange n).getD i 0 = (i : ℤ) :=
  getD_map_range h

/-- Filtering a duplicate-free list for equality with a member yields exactly
that member. -/
theorem filter_eq_self_of_nodup {l : List ℕ} {i : ℕ} (hnd : l.Nodup) (hi : i ∈ l) :
    l.filter (fun j => decide (j = i)) = [i] := by
  induction l with
  | nil => exact absurd hi (List.not_mem_nil i)
  | cons x xs ih =>
    rw [List.nodup_cons] at hnd
    rcases List.mem_cons.mp hi with h | h
    · subst h
      rw [List.filter_cons_of_pos (by simp)]
      rw [List.filter_eq_nil_iff.mpr (fun a ha => by
        simp only [decide_eq_true_eq]
        intro hax
        exact hnd.1 (hax ▸ ha))]
    · rw [List.filter_cons_of_neg (by
        simp only [decide_eq_true_eq]
        intro hxi
        exact hnd.1 (hxi ▸ h))]
      exact ih hnd.2 h

/-- With the synthetic identity labels and k = n, exactly the one seed entry
with label i is matched, at distance `row[i]`. -/
theorem matchedDists_intRange (n : ℕ) (row : List ℚ) (hlen : row.length = n)
    (i : ℕ) (hi : i < n) :
    matchedDists (intRange n) ((i : ℕ) : ℤ) row n = [row.getD i 0] := by
  unfold matchedDists
  have htake : (argsortQ row).take n = argsortQ row :=
    List.take_of_length_le (by rw [length_argsortQ, hlen])
  rw [htake]
  have hfc : (argsortQ row).filter (fun j => decide ((intRange n).getD j 0 = ((i : ℕ) : ℤ))) =
      (argsortQ row).filter (fun j => decide (j = i)) := by
    apply List.filter_congr
    intro j hj
    have hjn : j < n := hlen ▸ mem_argsortQ.mp hj
    rw [getD_intRange hjn]
    by_cases hji : j = i
    · subst hji; simp
    · simp only [decide_eq_decide]
      constructor
      · intro h
        exact_mod_cast h
      · intro h
        exact h ▸ rfl
  rw [hfc, filter_eq_self_of_nodup (nodup_argsortQ row)
    (mem_argsortQ.mpr (by rw [hlen]; exact hi))]
  rfl

theorem scoreOf_sumInv_single (d : ℚ) : scoreOf (sumInv [d]) = .fin d := by
  by_cases h : d = 0
  · subst h
    rfl
  · have hc : ([d].contains (0 : ℚ)) = false := by
      simp only [List.contains_cons, List.contains_nil, Bool.or_false, beq_eq_false_iff_ne]
      exact fun h0 => h h0.symm
    unfold sumInv
    rw [hc]
    simp only [Bool.false_eq_true, if_false, List.map_cons, List.map_nil, List.sum_cons,
      List.sum_nil, add_zero]
    show (if (1 / d : ℚ) = 0 then Score.inf else Score.fin (1 / (1 / d))) = Score.fin d
    rw [if_neg (one_div_ne_zero h), one_div_one_div]

theorem vertexScore_intRange (n : ℕ) (row : List ℚ) (hlen : row.length = n)
    (i : ℕ) (hi : i < n) :
    vertexScore (intRange n) n row ((i : ℕ) : ℤ) = .fin (row.getD i 0) := by
  unfold vertexScore
  rw [matchedDists_intRange n row hlen i hi]
  exact scoreOf_sumInv_single _

theorem scoreCol_scoreMatrix_intRange (dm : List (List ℚ)) (n : ℕ)
    (hrows : ∀ r ∈ dm, r.length = n) (i : ℕ) (hi : i < n) :
    scoreCol (scoreMatrix dm (intRange n) (intRange n) n) i = (colQ dm i).map Score.fin := by
  unfold scoreCol scoreMatrix colQ
  rw [List.map_map, List.map_map]
  apply List.map_congr_left
  intro row hrow
  show ((intRange n).map (fun a => vertexScore (intRange n) n row a)).getD i (.fin 0) =
    Score.fin (row.getD i 0)
  rw [intRange, List.map_map]
  rw [getD_map_range hi]
  show vertexScore (intRange n) n row ((i : ℕ) : ℤ) = _
  exact vertexScore_intRange n row (hrows row hrow) i hi

theorem argsortS_map_fin (l : List ℚ) : argsortS (l.map Score.fin) = argsortQ l := by
  unfold argsortS argsortQ argsortBy
  rw [List.length_map]
  congr 1
  funext i j
  unfold cmpIdx
  rw [getD_map_fin, getD_map_fin]
  rfl

theorem getD_orderCols {pw : List (List Score)} {m i : ℕ} (hi : i < m) :
    (orderCols pw m).getD i [] = argsortS (scoreCol pw i) := by
  unfold orderCols
  exact getD_map_range hi

theorem colNat_orderRows (oc : List (List ℕ)) (n m i : ℕ) (hi : i < m)
    (hlen : (oc.getD i []).length = n) :
    colNat (orderRows oc n m) i = oc.getD i [] := by
  unfold colNat orderRows
  rw [List.map_map]
  simp only [Function.comp_def]
  have hcg : ∀ r ∈ List.range n,
      (((List.range m).map (fun j => (oc.getD j []).getD r 0)).getD i 0) =
      (oc.getD i []).getD r 0 := fun r _ => getD_map_range hi
  rw [List.map_congr_left hcg]
  conv_lhs => rw [← hlen]
  exact map_getD_range _ 0

theorem length_argsortS (l : List Score) : (argsortS l).length = l.length :=
  length_argsortBy _ _ _

theorem predict_check_true_of_rows (dm : List (List ℚ)) (n k : ℕ) (al : List ℤ)
    (hrows : ∀ r ∈ dm, r.length = n) (hal : al.length = n) :
    (dm.all (fun row => ((argsortQ row).take k).all (fun j => decide (j < al.length)))) =
      true := by
  rw [List.all_eq_true]
  intro row hrow
  rw [List.all_eq_true]
  intro j hj
  have hmem : j ∈ argsortQ row := List.mem_of_mem_take hj
  have hlt : j < row.length := mem_argsortQ.mp hmem
  rw [hrows row hrow] at hlt
  exact decide_eq_true (by rw [hal]; exact hlt)

theorem predScores_isOk (pw : List (List Score)) (oc : List (List ℕ)) (ua : List ℤ)
    (n m : ℕ) (h : ∀ j ∈ List.range m, ∃ c, npIdx m (ua.getD j 0) = .ok c) :
    ∃ sc, predScores pw oc ua n m = .ok sc := by
  unfold predScores
  apply mapE_ok_of
  intro r _
  apply mapE_ok_of
  intro j hj
  obtain ⟨c, hc⟩ := h j hj
  exact ⟨(pw.getD ((oc.getD j []).getD r 0) []).getD c (.fin 0), by simp only [hc]⟩

theorem npIdx_intRange {m j : ℕ} (hj : j < m) :
    npIdx m ((intRange m).getD j 0) = .ok j := by
  rw [getD_intRange hj]
  have h0 : (0 : ℤ) ≤ (j : ℤ) := by omega
  have h1 : (j : ℤ) < (m : ℤ) := by omega
  rw [npIdx_ok_of_nonneg h0 h1]
  congr 1

/-- C3: for an unattributed seed of n vertices (synthetic labels 0..n-1, so
k is silently overridden to n), the nomination order for the attribute of
seed vertex i equals the ascending argsort of column i of the distance
matrix. -/
theorem c3_unattributed_order_is_distance_argsort
    (st : Nominator) (dm : List (List ℚ)) (n : ℕ)
    (hal : st.attr_labels = some (intRange n))
    (hua : st.unique_att = some (intRange n))
    (hdm : st.distance_matrix = some dm)
    (hrows : ∀ r ∈ dm, r.length = n)
    (i : ℕ) (hi : i < n) (z : ℤ) (hz : 0 < z) :
    ∃ out, predict st (.int z) = .ok out ∧
      colNat out.order i = argsortQ (colQ dm i) := by
  have hpr : predict st (.int z) = _predict dm (intRange n) (intRange n) n := by
    simp only [predict, hua, hal, hdm]
    rw [if_neg (by omega), if_pos trivial, length_intRange]
  have hchk := predict_check_true_of_rows dm n n (intRange n) hrows (length_intRange n)
  obtain ⟨sc, hsc⟩ := predScores_isOk (scoreMatrix dm (intRange n) (intRange n) n)
    (orderCols (scoreMatrix dm (intRange n) (intRange n) n) n) (intRange n) dm.length n
    (fun j hj => ⟨j, npIdx_intRange (List.mem_range.mp hj)⟩)
  have hout : _predict dm (intRange n) (intRange n) n =
      .ok ⟨orderRows (orderCols (scoreMatrix dm (intRange n) (intRange n) n) n)
        dm.length n, sc⟩ := by
    unfold _predict
    rw [if_pos hchk, length_intRange, hsc]
  refine ⟨_, by rw [hpr, hout], ?_⟩
  show colNat (orderRows (orderCols (scoreMatrix dm (intRange n) (intRange n) n) n)
    dm.length n) i = _
  have hoc : (orderCols (scoreMatrix dm (intRange n) (intRange n) n) n).getD i [] =
      argsortS (scoreCol (scoreMatrix dm (intRange n) (intRange n) n) i) :=
    getD_orderCols hi
  have hlen : ((orderCols (scoreMatrix dm (intRange n) (intRange n) n) n).getD i []).length
      = dm.length := by
    rw [hoc, length_argsortS]
    unfold scoreCol scoreMatrix
    rw [List.length_map, List.length_map]
  rw [colNat_orderRows _ _ _ _ hi hlen, hoc,
    scoreCol_scoreMatrix_intRange dm n hrows i hi, argsortS_map_fin]

theorem c3_unattributed_order_is_distance_argsort_witness :
    ∃ out, predict ⟨none, none, true, false, some (intRange 2), some (intRange 2),
        some [[1, 2], [3, 4]]⟩ (.int 5) = .ok out ∧
      colNat out.order 0 = argsortQ (colQ [[1, 2], [3, 4]] 0) := by
  refine c3_unattributed_order_is_distance_argsort _ [[1, 2], [3, 4]] 2 rfl rfl rfl
    ?_ 0 (by decide) 5 (by decide)
  intro r hr
  simp only [List.mem_cons, List.not_mem_nil, or_false] at hr
  rcases hr with rfl | rfl <;> rfl

theorem mem_argsortS {l : List Score} {j : ℕ} : j ∈ argsortS l ↔ j < l.length :=
  mem_argsortBy

theorem pairwise_argsortS (l : List Score) :
    (argsortS l).Pairwise (fun a b => cmpIdx Score.lt (.fin 0) l a b = true) :=
  pairwise_argsortBy Score.lt (.fin 0) l slt_asym slt_trans slt_conn

theorem scoreAt_eq {dm : List (List ℚ)} {al ua : List ℤ} {k v a : ℕ}
    (hv : v < dm.length) (ha : a < ua.length) :
    scoreAt dm al ua k v a = vertexScore al k (dm.getD v []) (ua.getD a 0) := by
  unfold scoreAt scoreMatrix
  have h1 : (List.map (fun row => List.map (fun a => vertexScore al k row a) ua) dm).getD
      v [] = List.map (fun a => vertexScore al k (dm.getD v []) a) ua := by
    rw [List.getD_eq_getElem _ _ (by rw [List.length_map]; exact hv), List.getElem_map,
      List.getD_eq_getElem _ _ hv]
  rw [h1, List.getD_eq_getElem _ _ (by rw [List.length_map]; exact ha), List.getElem_map,
    List.getD_eq_getElem _ _ ha]

theorem getD_scoreCol {pw : List (List Score)} {a u : ℕ} (hu : u < pw.length) :
    (scoreCol pw a).getD u (.fin 0) = (pw.getD u []).getD a (.fin 0) := by
  unfold scoreCol
  rw [List.getD_eq_getElem _ _ (by rw [List.length_map]; exact hu), List.getElem_map,
    List.getD_eq_getElem _ _ hu]

theorem matchedDists_mem_row {al : List ℤ} {a : ℤ} {row : List ℚ} {k : ℕ} :
    ∀ d ∈ matchedDists al a row k, d ∈ row := by
  intro d hd
  unfold matchedDists at hd
  rw [List.mem_map] at hd
  obtain ⟨j, hj, hdj⟩ := hd
  have hj1 : j ∈ argsortQ row := List.mem_of_mem_take (List.mem_of_mem_filter hj)
  have hj2 : j < row.length := mem_argsortQ.mp hj1
  rw [← hdj, List.getD_eq_getElem _ _ hj2]
  exact List.getElem_mem hj2

/-- A vertex with at least one matched neighbor at nonnegative distances gets
a finite score: a zero distance makes the inverse sum infinite and the score
0; otherwise the inverse sum is positive and the score is its finite
reciprocal. -/
theorem vertexScore_fin_of_matched (al : List ℤ) (k : ℕ) (row : List ℚ) (a : ℤ)
    (hne : matchedDists al a row k ≠ [])
    (hnn : ∀ d ∈ matchedDists al a row k, 0 ≤ d) :
    ∃ q, vertexScore al k row a = .fin q := by
  unfold vertexScore
  cases hc : (matchedDists al a row k).contains 0 with
  | true =>
    refine ⟨0, ?_⟩
    unfold sumInv
    rw [hc]
    rfl
  | false =>
    have h0 : (0 : ℚ) ∉ matchedDists al a row k := by simpa using hc
    have hpos : ∀ d ∈ (matchedDists al a row k).map (fun d => 1 / d), 0 < d := by
      intro d hd
      rw [List.mem_map] at hd
      obtain ⟨x, hx, hdx⟩ := hd
      have hx0 : x ≠ 0 := fun h => h0 (h ▸ hx)
      have : 0 < x := lt_of_le_of_ne (hnn x hx) (Ne.symm hx0)
      rw [← hdx]
      exact one_div_pos.mpr this
    have hsum : 0 < ((matchedDists al a row k).map (fun d => 1 / d)).sum :=
      List.sum_pos _ hpos (by
        intro h
        exact hne (List.map_eq_nil_iff.mp h))
    refine ⟨1 / ((matchedDists al a row k).map (fun d => 1 / d)).sum, ?_⟩
    unfold sumInv
    rw [hc]
    show (if ((matchedDists al a row k).map (fun d => 1 / d)).sum = 0 then Score.inf
      else Score.fin (1 / ((matchedDists al a row k).map (fun d => 1 / d)).sum)) = _
    rw [if_neg hsum.ne']

/-- C4: for a fitted state on which `predict` returns, an attribute position
a and a vertex v with no neighbor of that attribute among its k' nearest seed
entries (k' the effective neighbor count `predict` dispatches): v's
`pred_weights` entry is positive infinity, and v is ranked strictly after
every vertex u that has at least one matching neighbor (whose score is
finite, given nonnegative distances). -/
theorem c4_no_evidence_scores_inf_and_ranks_last
    (st : Nominator) (dm : List (List ℚ)) (al ua : List ℤ)
    (hua : st.unique_att = some ua) (hal : st.attr_labels = some al)
    (hdm : st.distance_matrix = some dm)
    (kz : ℤ) (out : PredictOut) (hok : predict st (.int kz) = .ok out)
    (k' : ℕ) (hk' : k' = if ua.length = al.length then ua.length else kz.toNat)
    (a u v : ℕ) (ha : a < ua.length) (hu : u < dm.length) (hv : v < dm.length)
    (hnn : ∀ row ∈ dm, ∀ d ∈ row, 0 ≤ d)
    (hvem : matchedDists al (ua.getD a 0) (dm.getD v []) k' = [])
    (hune : matchedDists al (ua.getD a 0) (dm.getD u []) k' ≠ []) :
    scoreAt dm al ua k' v a = .inf ∧
    (colNat out.order a).indexOf u < (colNat out.order a).indexOf v := by
  have hpred : _predict dm al ua k' = .ok out := by
    simp only [predict] at hok
    split at hok
    · exact Except.noConfusion hok
    · simp only [hua, hal, hdm] at hok
      split at hok
      · rename_i hcnd
        rw [if_pos hcnd] at hk'
        rw [hk']
        exact hok
      · rename_i hcnd
        rw [if_neg hcnd] at hk'
        rw [hk']
        exact hok
  have horder : out.order =
      orderRows (orderCols (scoreMatrix dm al ua k') ua.length) dm.length ua.length := by
    unfold _predict at hpred
    split at hpred
    · cases hps : predScores (scoreMatrix dm al ua k')
          (orderCols (scoreMatrix dm al ua k') ua.length) ua dm.length ua.length with
      | error e => rw [hps] at hpred; exact Except.noConfusion hpred
      | ok sc =>
        rw [hps] at hpred
        injection hpred with hpred
        rw [← hpred]
    · exact Except.noConfusion hpred
  have hrowu : dm.getD u [] ∈ dm := by
    rw [List.getD_eq_getElem _ _ hu]
    exact List.getElem_mem hu
  have hsv : scoreAt dm al ua k' v a = .inf := by
    rw [scoreAt_eq hv ha]
    unfold vertexScore
    rw [hvem]
    simp [sumInv, scoreOf]
  obtain ⟨q, hsu⟩ : ∃ q, vertexScore al k' (dm.getD u []) (ua.getD a 0) = .fin q :=
    vertexScore_fin_of_matched _ _ _ _ hune
      (fun d hd => hnn _ hrowu d (matchedDists_mem_row d hd))
  refine ⟨hsv, ?_⟩
  have hlenTail : ((orderCols (scoreMatrix dm al ua k') ua.length).getD a []).length =
      dm.length := by
    rw [getD_orderCols ha, length_argsortS]
    unfold scoreCol scoreMatrix
    rw [List.length_map, List.length_map]
  rw [horder, colNat_orderRows _ _ _ _ ha hlenTail, getD_orderCols ha]
  have hplen : (scoreMatrix dm al ua k').length = dm.length := by
    unfold scoreMatrix
    rw [List.length_map]
  have hclen : (scoreCol (scoreMatrix dm al ua k') a).length = dm.length := by
    unfold scoreCol
    rw [List.length_map, hplen]
  have hcu : (scoreCol (scoreMatrix dm al ua k') a).getD u (.fin 0) = .fin q := by
    rw [getD_scoreCol (by rw [hplen]; exact hu)]
    show scoreAt dm al ua k' u a = _
    rw [scoreAt_eq hu ha, hsu]
  have hcv : (scoreCol (scoreMatrix dm al ua k') a).getD v (.fin 0) = .inf := by
    rw [getD_scoreCol (by rw [hplen]; exact hv)]
    exact hsv
  apply indexOf_lt_indexOf_of_pairwise (pairwise_argsortS _)
  · exact mem_argsortS.mpr (by rw [hclen]; exact hu)
  · exact mem_argsortS.mpr (by rw [hclen]; exact hv)
  · unfold cmpIdx
    rw [hcu, hcv]
    rfl
  · unfold cmpIdx
    rw [hcu, hcv]
    rfl

/-- Witness for C4: seed labels (0,0,1), distance matrix [[1,2,3],[5,6,1]],
k=1. Vertex 0's nearest seed has label 0, so it has no evidence for
attribute position 1 (label 1) and ranks after vertex 1, whose nearest seed
has label 1. -/
theorem c4_no_evidence_scores_inf_and_ranks_last_witness :
    scoreAt [[1, 2, 3], [5, 6, 1]] [0, 0, 1] [0, 1] 1 0 1 = .inf ∧
    (colNat [[0, 1], [1, 0]] 1).indexOf 1 < (colNat [[0, 1], [1, 0]] 1).indexOf 0 :=
  c4_no_evidence_scores_inf_and_ranks_last
    ⟨none, none, true, false, some [0, 0, 1], some [0, 1], some [[1, 2, 3], [5, 6, 1]]⟩
    [[1, 2, 3], [5, 6, 1]] [0, 0, 1] [0, 1] rfl rfl rfl 1
    ⟨[[0, 1], [1, 0]], [[.fin 1, .fin 1], [.inf, .inf]]⟩
    (by norm_num [predict, _predict, scoreMatrix, vertexScore, matchedDists, sumInv,
      scoreOf, argsortQ, argsortS, argsortBy, sortIdx, insIdx, cmpIdx, qlt, Score.lt,
      orderCols, orderRows, scoreCol, predScores, mapE, npIdx, List.range_succ])
    1 (by norm_num) 1 1 0 (by norm_num) (by norm_num) (by norm_num)
    (by decide) (by decide) (by decide)

/-- Witness for C8: compute-mode Nominator, fit with adjacency None. -/
theorem c8_fit_adjacency_failure_preserves_seed_state_witness :
    ∃ e, fit (fun _ _ => [[0]]) (fun _ _ => 0)
        ⟨none, some .ase, false, false, none, none, none⟩ none (.d1 true [0]) =
      (⟨none, some .ase, false, false, none, none, none⟩, .error e) ∧
      (fit (fun _ _ => [[0]]) (fun _ _ => 0)
        ⟨none, some .ase, false, false, none, none, none⟩ none
        (.d1 true [0])).1.attr_labels =
        (⟨none, some .ase, false, false, none, none, none⟩ : Nominator).attr_labels ∧
      (fit (fun _ _ => [[0]]) (fun _ _ => 0)
        ⟨none, some .ase, false, false, none, none, none⟩ none
        (.d1 true [0])).1.unique_att =
        (⟨none, some .ase, false, false, none, none, none⟩ : Nominator).unique_att ∧
      (fit (fun _ _ => [[0]]) (fun _ _ => 0)
        ⟨none, some .ase, false, false, none, none, none⟩ none
        (.d1 true [0])).1.distance_matrix =
        (⟨none, some .ase, false, false, none, none, none⟩ : Nominator).distance_matrix :=
  c8_fit_adjacency_failure_preserves_seed_state (fun _ _ => [[0]]) (fun _ _ => 0)
    ⟨none, some .ase, false, false, none, none, none⟩ none (.d1 true [0]) [[0, 0]] rfl
    (Or.inl rfl) (Or.inl rfl)
